import Mathlib

/-!
Verification of the `FileManager` file-access sandbox and search engine
(`src/file_server/files.py`).  The Python code is shallowly embedded:
paths are `String`s over the POSIX separator `/` (the server targets a
POSIX filesystem; `os.sep = "/"`, `os.path.isabs p = p.startswith "/"`),
directory trees are explicit inductive values, and the `os`/`re`
collaborators are modelled by explicit parameters (a decode oracle per
encoding, an abstract regex engine for `re.compile`).  Every definition
follows the corresponding Python function; deviations forced by the model
are noted in the doc comment of the definition concerned.
-/

namespace FileServer

/-! ### Character and string primitives

`String` operations are routed through `String.data : List Char` so that
every concrete computation reduces by `decide`.  Python `len`, slicing and
`str.count` act on characters, which matches `List Char` exactly. -/

/-- Lower-case a character list; models `str.lower()` (the inputs used in
the development are ASCII, where `Char.toLower` and Python agree). -/
def lowerChars (s : List Char) : List Char := s.map Char.toLower

/-- Model of Python `s.startswith(pre)`. -/
def strStartsWith (s pre : String) : Bool := pre.data.isPrefixOf s.data

/-- Model of Python `s.endswith(suf)`. -/
def strEndsWith (s suf : String) : Bool := suf.data.reverse.isPrefixOf s.data.reverse

/-- Model of Python substring containment `needle in hay` for strings:
true iff `needle` occurs contiguously inside `hay` (the empty needle is
contained in everything, as in Python). -/
def containsSub (hay needle : List Char) : Bool :=
  needle.isPrefixOf hay ||
    match hay with
    | [] => false
    | _ :: t => containsSub t needle

/-- Model of Python `s.split(sep)` for a one-character separator: splits
on every occurrence, keeping empty pieces; the result is never empty. -/
def splitOnChar (sep : Char) : List Char → List (List Char)
  | [] => [[]]
  | c :: cs =>
    match splitOnChar sep cs with
    | [] => [[]]
    | p :: ps => if c = sep then [] :: p :: ps else (c :: p) :: ps

/-- Model of `os.path.basename` on POSIX: the part of the path after the
final `/` (empty when the path ends in `/`). -/
def basenameChars (s : List Char) : List Char :=
  (s.reverse.takeWhile (fun c => c ≠ '/')).reverse

/-- The backtracking glob recurrence, written with a structural fuel
argument so that the kernel can evaluate it (the natural recursion is
well-founded on `(s.length, p.length)`, which fuel
`p.length + s.length + 1` always covers; see `globMatchFuel_stable`). -/
def globMatchFuel : Nat → List Char → List Char → Bool
  | 0, _, _ => false
  | _ + 1, [], [] => true
  | n + 1, '*' :: ps, [] => globMatchFuel n ps []
  | _ + 1, _ :: _, [] => false
  | _ + 1, [], _ :: _ => false
  | n + 1, '*' :: ps, c :: cs =>
    globMatchFuel n ps (c :: cs) || globMatchFuel n ('*' :: ps) cs
  | n + 1, '?' :: ps, _ :: cs => globMatchFuel n ps cs
  | n + 1, p :: ps, c :: cs => p == c && globMatchFuel n ps cs

/-- Model of `fnmatch.fnmatch` pattern matching (first argument is the
pattern, second the candidate): `*` matches any character sequence, `?`
any single character, all other characters literally.  On POSIX
`os.path.normcase` is the identity, so matching is case-sensitive.
(The `[...]` character-class form is not used by any pattern in the
repository's restriction data and is not modelled.) -/
def globMatch (p s : List Char) : Bool :=
  globMatchFuel (p.length + s.length + 1) p s

/-- Fuel recurrence for `wildStarMatch`, as for `globMatchFuel`. -/
def wildStarFuel : Nat → List Char → List Char → Bool
  | 0, _, _ => false
  | _ + 1, [], _ => true
  | n + 1, '*' :: ps, [] => wildStarFuel n ps []
  | _ + 1, _ :: _, [] => false
  | n + 1, '*' :: ps, c :: cs =>
    wildStarFuel n ps (c :: cs) || wildStarFuel n ('*' :: ps) cs
  | n + 1, p :: ps, c :: cs => p == c && wildStarFuel n ps cs

/-- Matcher for the regex built in `_is_restricted_path` for an absolute
restriction containing `*`: `"^" + re.escape(r).replace("\*", ".*") + ".*$"`
tried with `re.match`.  Everything except `*` is escaped, so the regex
means: the path starts with an instance of `r` where each `*` stands for
any character sequence.  (The regex dot does not match a newline; paths
are assumed newline-free.) -/
def wildStarMatch (p s : List Char) : Bool :=
  wildStarFuel (p.length + s.length + 1) p s

/-! ### POSIX path functions (`os.path` on a POSIX host) -/

/-- Model of `os.path.isabs` on POSIX. -/
def isabs (p : String) : Bool := strStartsWith p "/"

/-- Model of the two-argument `os.path.join(a, b)` on POSIX: an absolute
`b` replaces `a`; otherwise `b` is appended, inserting `/` unless `a` is
empty or already ends in `/`. -/
def pathJoin (a b : String) : String :=
  if isabs b then b
  else if a.data == [] || a.data.getLast? == some '/' then String.mk (a.data ++ b.data)
  else String.mk (a.data ++ '/' :: b.data)

/-- One step of the component scan inside `posixpath.normpath`: the loop
body over `comps` that drops `''` and `.`, resolves `..`, and keeps other
components. -/
def normpathStep (initialSlashes : Nat) (acc : List (List Char)) (comp : List Char) :
    List (List Char) :=
  if comp == [] || comp == ['.'] then acc
  else if !(comp == ['.', '.']) || (initialSlashes == 0 && acc.isEmpty)
      || (!acc.isEmpty && acc.getLast? == some ['.', '.']) then acc ++ [comp]
  else if !acc.isEmpty then acc.dropLast
  else acc

/-- Model of `posixpath.normpath`. -/
def normpath (path : String) : String :=
  if path.data == [] then "."
  else
    let initialSlashes : Nat :=
      if strStartsWith path "/" then
        if strStartsWith path "//" && !strStartsWith path "///" then 2 else 1
      else 0
    let comps := splitOnChar '/' path.data
    let newComps := comps.foldl (normpathStep initialSlashes) []
    let joined := List.intercalate ['/'] newComps
    let out := List.replicate initialSlashes '/' ++ joined
    if out == [] then "." else String.mk out

/-- Model of `posixpath.abspath` relative to a working directory `cwd`:
relative paths are joined onto `cwd`, then the result is normalized. -/
def abspath (cwd path : String) : String :=
  if isabs path then normpath path else normpath (pathJoin cwd path)

/-! ### Errors and the manager configuration

The Python code raises `ValueError` with distinct messages; the spec names
the four situations `OutsideRootError`, `RestrictedPathError`,
`NotAFileError` and `DecodeError`, which we adopt as an error type. -/

inductive FMError where
  | OutsideRootError
  | RestrictedPathError
  | NotAFileError
  | DecodeError
deriving DecidableEq

/-- The state built by `FileManager.__init__`: normalized root folders and
the categorized restriction lists.  (`os.path.isdir` existence checking of
roots is an environmental effect outside the model.) -/
structure FileManager where
  root_folders : List String
  restricted_folders : List String
  restricted_files : List String

/-- `FileManager.DEFAULT_IGNORE_PATTERNS`, in dict insertion order. -/
def DEFAULT_IGNORE_PATTERNS : List (String × List String) :=
  [("version_control", [".git*", ".hg", ".svn", ".bzr"]),
   ("operating_system", [".DS_Store", "Thumbs.db", "desktop.ini", "$RECYCLE.BIN"]),
   ("ide_editor", [".vscode", ".idea", "*.sublime-*", "*.code-workspace"]),
   ("python", ["__pycache__", ".pytest_cache", ".mypy_cache", ".coverage",
               "*.pyc", "*.pyo", "*.pyd"]),
   ("dependencies", ["node_modules", "bower_components", "vendor"]),
   ("logs_temp", ["*.log", "*.tmp", "*.swp", "*.bak", "*.cache"]),
   ("security", ["*.crt", "*.key", "*.pem", "*.pfx", "*.p12"]),
   ("config", ["*.cfg", "*.conf", "*.ini", "*.env"]),
   ("database", ["*.sqlite*", "*.db*", "*.mdb"]),
   ("archives", ["*.tar", "*.gz", "*.zip", "*.rar", "*.7z", "*.bz2"]),
   ("development", ["*.min.*", "*.map"])]

/-- `FileManager.DEFAULT_RESTRICTED_PATHS`. -/
def DEFAULT_RESTRICTED_PATHS : List String :=
  ["/etc", "/var", "/root", "/sys", "/proc", "/boot",
   "C:\\Windows", "C:\\Program Files", "C:\\Program Files (x86)",
   "C:\\Users\\*\\AppData", "/usr/bin", "/bin", "/sbin", "/system"]

/-- The folder/file test of `FileManager._categorize_patterns`: a pattern
is a folder pattern when it ends in `/` or its basename contains no dot. -/
def isFolderPattern (p : String) : Bool :=
  strEndsWith p "/" || !((basenameChars p.data).contains '.')

/-- `FileManager._categorize_patterns`: split a pattern list into folder
patterns and file patterns, keeping order. -/
def categorize_patterns (patterns : List String) : List String × List String :=
  (patterns.filter isFolderPattern, patterns.filter (fun p => !isFolderPattern p))

/-- `FileManager._add_default_restrictions`: the default restricted paths
plus the categorized default ignore patterns, in group order. -/
def add_default_restrictions : List String × List String :=
  DEFAULT_IGNORE_PATTERNS.foldl
    (fun acc g =>
      let cat := categorize_patterns g.2
      (acc.1 ++ cat.1, acc.2 ++ cat.2))
    (DEFAULT_RESTRICTED_PATHS, [])

/-- `FileManager._normalize_folder_paths`: absolute entries are replaced
by `abspath(normpath(entry))`, relative ones kept as-is. -/
def normalize_folder_paths (cwd : String) (folder_paths : List String) : List String :=
  folder_paths.map (fun p => if isabs p then abspath cwd (normpath p) else p)

/-- `FileManager._initialize_restrictions` (the `None` optional arguments
are modelled as empty lists, over which the folds are identities, matching
the Python truthiness guards). -/
def initRestrictions (cwd : String) (restricted_folders restricted_files : List String)
    (ignore_patterns : List (String × List String)) (include_defaults : Bool) :
    List String × List String :=
  let base := if include_defaults then add_default_restrictions else ([], [])
  let merged := ignore_patterns.foldl
    (fun acc g =>
      let cat := categorize_patterns g.2
      (acc.1 ++ cat.1, acc.2 ++ cat.2))
    base
  let folderR := merged.1 ++ restricted_folders
  let fileR := merged.2 ++ restricted_files
  let absolutePaths := (folderR.filter (fun p => isabs p)).map (fun p => abspath cwd (normpath p))
  let relativePaths := folderR.filter (fun p => !isabs p)
  (absolutePaths ++ relativePaths, fileR)

/-- `FileManager.__init__`: normalize the root folders and build the
restriction lists. -/
def mkFileManager (cwd : String) (root_folders : List String)
    (restricted_folders restricted_files : List String)
    (ignore_patterns : List (String × List String)) (include_defaults : Bool) :
    FileManager :=
  let roots := root_folders.map (fun f => abspath cwd (normpath f))
  let r := initRestrictions cwd restricted_folders restricted_files ignore_patterns
    include_defaults
  ⟨roots, r.1, r.2⟩

/-! ### PathGuard -/

/-- `FileManager._is_in_root_folders`: a plain string `startswith` test
against each configured root. -/
def is_in_root_folders (fm : FileManager) (path : String) : Bool :=
  fm.root_folders.any (fun root => strStartsWith path root)

/-- The inner window test of the relative branch of
`FileManager._is_restricted_path`: every pattern segment `fnmatch`-matches
the corresponding path segment starting at the current offset (false when
the path runs out first, which reproduces Python's `range` bound). -/
def segsMatchHere : List (List Char) → List (List Char) → Bool
  | _, [] => true
  | [], _ :: _ => false
  | p :: ps, r :: rs => globMatch r p && segsMatchHere ps rs

/-- The sliding-window loop `for i in range(len(path_parts) - ...)` of the
relative branch of `FileManager._is_restricted_path`: some contiguous
window of path segments matches all pattern segments. -/
def segsSlide (pp rp : List (List Char)) : Bool :=
  segsMatchHere pp rp ||
    match pp with
    | [] => false
    | _ :: t => segsSlide t rp

/-- The per-entry folder test inside `FileManager._is_restricted_path`:
absolute entries with `*` use the wildcard-prefix regex, other absolute
entries a `startswith` test, and relative entries slide their `/`-split
segments as `fnmatch` patterns over the path's segments. -/
def folderRestricts (path restricted : String) : Bool :=
  if isabs restricted then
    if restricted.data.contains '*' then wildStarMatch restricted.data path.data
    else strStartsWith path restricted
  else
    segsSlide (splitOnChar '/' path.data) (splitOnChar '/' restricted.data)

/-- `FileManager._is_restricted_path`: any folder restriction matches, or
the basename matches any file-restriction glob. -/
def is_restricted_path (fm : FileManager) (path : String) : Bool :=
  fm.restricted_folders.any (fun r => folderRestricts path r) ||
    fm.restricted_files.any (fun pat => globMatch pat.data (basenameChars path.data))

/-- `FileManager._validate_path`: resolve to an absolute normalized path,
fail `OutsideRootError` if in no root, then `RestrictedPathError` if
restricted, else return the resolved path. -/
def validate_path (fm : FileManager) (cwd path : String) : Except FMError String :=
  let abs_path := abspath cwd (normpath path)
  if !is_in_root_folders fm abs_path then .error .OutsideRootError
  else if is_restricted_path fm abs_path then .error .RestrictedPathError
  else .ok abs_path

/-! ### Directory trees and the `os.walk`-based operations

`os.walk` reports each visited directory as a `(root, dirs, files)`
triple, top-down, descending after the loop body into the directories
left in `dirs` (so `dirs[:] = ...` prunes the descent).  A directory's
contents are modelled as the two lists `os.walk` reports. -/

inductive Dir where
  | node (dirs : List (String × Dir)) (files : List String)

/-- The subdirectory list `os.walk` reports for this directory. -/
def Dir.dirs : Dir → List (String × Dir)
  | .node ds _ => ds

/-- The file-name list `os.walk` reports for this directory. -/
def Dir.files : Dir → List String
  | .node _ fs => fs

/-- `root[len(validated_path):].count(os.sep)`: the depth of `current`
below the validated starting point. -/
def depthFrom (validated current : String) : Nat :=
  (current.data.drop validated.data.length).count '/'

mutual

/-- The `os.walk` loop of `FileManager.list_files`, walking the directory
at `current` (with contents as given) under the validated start
`validated`.  A directory at depth `≥ depth` contributes nothing and is
not descended into (`del dirs[:]; continue`); otherwise its non-restricted
files are collected and the pruned subdirectories are walked in order.
The `dirs[:]` pruning filter is modelled by the per-directory guard in
`walkLFDirs` (at a depth-boundary directory the source still evaluates the
filter, but discards it, so the guard placement is observationally
identical). -/
def walkLF (fm : FileManager) (validated : String) (depth : Nat)
    (current : String) : Dir → List String
  | .node ds fs =>
    if depthFrom validated current ≥ depth then []
    else
      fs.filterMap (fun f =>
        let full_path := pathJoin current f
        if is_restricted_path fm full_path then none else some full_path)
      ++ walkLFDirs fm validated depth current ds

/-- Descent of `walkLF` into the subdirectory list: restricted
subdirectories are pruned (not descended into), the rest are walked in
order. -/
def walkLFDirs (fm : FileManager) (validated : String) (depth : Nat)
    (current : String) : List (String × Dir) → List String
  | [] => []
  | (d, sub) :: rest =>
    (if is_restricted_path fm (pathJoin current d) then []
     else walkLF fm validated depth (pathJoin current d) sub)
    ++ walkLFDirs fm validated depth current rest

end

mutual

/-- Instrumented twin of `walkLF` that additionally returns the list of
directory paths `os.walk` visits (the starting directory plus every
directory actually descended into); the first component is `walkLF`'s
result (proved in the C5 theorem). -/
def walkLFvis (fm : FileManager) (validated : String) (depth : Nat)
    (current : String) : Dir → List String × List String
  | .node ds fs =>
    if depthFrom validated current ≥ depth then ([], [current])
    else
      let sub := walkLFvisDirs fm validated depth current ds
      (fs.filterMap (fun f =>
        let full_path := pathJoin current f
        if is_restricted_path fm full_path then none else some full_path)
        ++ sub.1,
       current :: sub.2)

/-- Subdirectory descent of `walkLFvis`: a restricted subdirectory is
pruned before descent, so nothing below it is visited. -/
def walkLFvisDirs (fm : FileManager) (validated : String) (depth : Nat)
    (current : String) : List (String × Dir) → List String × List String
  | [] => ([], [])
  | (d, sub) :: rest =>
    let tail := walkLFvisDirs fm validated depth current rest
    if is_restricted_path fm (pathJoin current d) then tail
    else
      let one := walkLFvis fm validated depth (pathJoin current d) sub
      (one.1 ++ tail.1, one.2 ++ tail.2)

end

mutual

/-- The `os.walk` loop of `FileManager.search_files_by_name`: identical
traversal to `walkLF` (the source checks the depth bound before pruning
rather than after, which is observationally the same), except that a file
is collected only if it is not restricted and its name `fnmatch`-matches
`pattern`. -/
def walkNS (fm : FileManager) (validated pattern : String) (max_depth : Nat)
    (current : String) : Dir → List String
  | .node ds fs =>
    if depthFrom validated current ≥ max_depth then []
    else
      fs.filterMap (fun f =>
        let full_path := pathJoin current f
        if !is_restricted_path fm full_path && globMatch pattern.data f.data
        then some full_path else none)
      ++ walkNSDirs fm validated pattern max_depth current ds

/-- Subdirectory descent of `walkNS`, pruning restricted directories. -/
def walkNSDirs (fm : FileManager) (validated pattern : String) (max_depth : Nat)
    (current : String) : List (String × Dir) → List String
  | [] => []
  | (d, sub) :: rest =>
    (if is_restricted_path fm (pathJoin current d) then []
     else walkNS fm validated pattern max_depth (pathJoin current d) sub)
    ++ walkNSDirs fm validated pattern max_depth current rest

end

/-- `FileManager.list_files`: a `None` path means every configured root;
each starting point is validated (a validation error aborts the whole
call, discarding earlier results) and the walks are concatenated.  `fsAt`
models the filesystem: the directory contents found at a validated path. -/
def list_files (fm : FileManager) (cwd : String) (fsAt : String → Dir)
    (path : Option String) (depth : Nat) : Except FMError (List String) :=
  let paths := match path with
    | none => fm.root_folders
    | some p => [p]
  paths.foldlM (fun acc current_path => do
    let v ← validate_path fm cwd current_path
    pure (acc ++ walkLF fm v depth v (fsAt v))) []

/-- `FileManager.search_files_by_name`: same root resolution and
validation as `list_files`, walking with `walkNS`. -/
def search_files_by_name (fm : FileManager) (cwd : String) (fsAt : String → Dir)
    (pattern : String) (path : Option String) (max_depth : Nat) :
    Except FMError (List String) :=
  let paths := match path with
    | none => fm.root_folders
    | some p => [p]
  paths.foldlM (fun acc search_path => do
    let v ← validate_path fm cwd search_path
    pure (acc ++ walkNS fm v pattern max_depth v (fsAt v))) []

/-- `FileManager.read_file`: validate, fail when the target is not a
regular file, then decode strictly as UTF-8 and nothing else
(`open(validated_path, "r", encoding="utf-8")`; a `UnicodeDecodeError`
propagates).  `isFile` models `os.path.isfile` and `utf8` the strict
UTF-8 decode of the file's bytes (`none` = invalid byte sequence). -/
def read_file (fm : FileManager) (cwd : String) (isFile : String → Bool)
    (utf8 : String → Option String) (path : String) : Except FMError String :=
  match validate_path fm cwd path with
  | .error e => .error e
  | .ok v =>
    if !isFile v then .error .NotAFileError
    else
      match utf8 v with
      | none => .error .DecodeError
      | some s => .ok s

/-! ### ContentSearch (`search_files_by_content`) -/

/-- The encodings tried by `search_files_by_content`, in order. -/
inductive Enc where
  | utf8sig
  | utf8
  | utf16le
  | utf16be
  | latin1
  | eucjp
  | iso2022jp
deriving DecidableEq

/-- The tuple `encodings = ("utf-8-sig", "utf-8", "utf-16-le", "utf-16-be",
"latin-1", "euc-jp", "iso-2022-jp")`. -/
def encodings : List Enc :=
  [.utf8sig, .utf8, .utf16le, .utf16be, .latin1, .eucjp, .iso2022jp]

/-- Outcome of `open(full_path, "r", encoding=e)` + `f.read()` for one
encoding: a successful decode, a `UnicodeDecodeError`, or an
`IOError`/`PermissionError`. -/
inductive ReadOutcome where
  | ok (content : String)
  | decodeErr
  | ioErr

/-- Abstract model of the `re` module as `_content_matches` uses it:
`compile q = none` when `re.compile(q, re.IGNORECASE)` raises `re.error`
(invalid regex); otherwise a matcher `m` with `m content` modelling
`pattern.search(content) is not None` (the case-insensitive flag is part
of the abstract matcher). -/
structure RegexEngine where
  compile : String → Option (String → Bool)

/-- `FileManager._content_matches`: in regex mode compile the query and
search, an invalid regex yielding `False`; in literal mode the
case-insensitive containment test `query.lower() in content.lower()`. -/
def content_matches (eng : RegexEngine) (content query : String)
    (is_regex : Bool) : Bool :=
  if is_regex then
    match eng.compile query with
    | some m => m content
    | none => false
  else containsSub (lowerChars content.data) (lowerChars query.data)

/-- `FileManager._is_likely_binary`'s `binary_extensions` set. -/
def binary_extensions : List String :=
  [".bin", ".exe", ".dll", ".so", ".dylib", ".obj", ".o", ".pyc", ".pyd",
   ".jpg", ".jpeg", ".png", ".gif", ".bmp", ".tiff", ".ico", ".webp",
   ".mp3", ".mp4", ".avi", ".mov", ".flv", ".wmv", ".wma", ".ogg", ".wav",
   ".zip", ".tar", ".gz", ".bz2", ".7z", ".rar", ".iso",
   ".pdf", ".doc", ".docx", ".xls", ".xlsx", ".ppt", ".pptx",
   ".db", ".sqlite", ".mdb", ".accdb"]

/-- `os.path.splitext(p)[1]` on POSIX: the suffix of the basename from its
last dot, empty when the basename has no dot or only leading dots before
it. -/
def splitextExt (p : List Char) : List Char :=
  let b := basenameChars p
  if b.contains '.' then
    let revAfter := b.reverse.takeWhile (fun c => c ≠ '.')
    let namepart := b.take (b.length - revAfter.length - 1)
    if namepart.any (fun c => c ≠ '.') then '.' :: revAfter.reverse else []
  else []

/-- `FileManager._is_likely_binary`: the lower-cased extension is in the
denylist. -/
def is_likely_binary (path : String) : Bool :=
  binary_extensions.contains (String.mk (lowerChars (splitextExt path.data)))

/-- The encoding loop of `search_files_by_content` over one file: try each
encoding in order; a successful decode whose content matches records the
file and breaks; a successful decode that does not match falls through to
the next encoding (there is no break on the non-matching side);
`UnicodeDecodeError` continues; `IOError`/`PermissionError` breaks,
abandoning the file. -/
def tryEncodings (eng : RegexEngine) (read : Enc → ReadOutcome)
    (query : String) (is_regex : Bool) : List Enc → Bool
  | [] => false
  | e :: rest =>
    match read e with
    | .ok content =>
      if content_matches eng content query is_regex then true
      else tryEncodings eng read query is_regex rest
    | .decodeErr => tryEncodings eng read query is_regex rest
    | .ioErr => false

/-- Whether the encoding loop records the file. -/
def fileMatchesLoop (eng : RegexEngine) (read : Enc → ReadOutcome)
    (query : String) (is_regex : Bool) : Bool :=
  tryEncodings eng read query is_regex encodings

/-- The spec's reading of the encoding loop ("only one successful decode
is used — first encoding that decodes successfully is authoritative,
matched or not"): stop at the first successful decode and use its match
result alone.  Defined from the spec's words, for comparison with
`tryEncodings`. -/
def tryEncodingsFirstDecode (eng : RegexEngine) (read : Enc → ReadOutcome)
    (query : String) (is_regex : Bool) : List Enc → Bool
  | [] => false
  | e :: rest =>
    match read e with
    | .ok content => content_matches eng content query is_regex
    | .decodeErr => tryEncodingsFirstDecode eng read query is_regex rest
    | .ioErr => false

/-- Spec-side counterpart of `fileMatchesLoop`. -/
def fileMatchesFirstDecode (eng : RegexEngine) (read : Enc → ReadOutcome)
    (query : String) (is_regex : Bool) : Bool :=
  tryEncodingsFirstDecode eng read query is_regex encodings

/-- Reading with `e` does not hit the `IOError`/`PermissionError` break. -/
def notIOErr (read : Enc → ReadOutcome) (e : Enc) : Bool :=
  match read e with
  | .ioErr => false
  | _ => true

/-- Reading with `e` decodes successfully to matching content. -/
def encMatches (eng : RegexEngine) (read : Enc → ReadOutcome)
    (query : String) (is_regex : Bool) (e : Enc) : Bool :=
  match read e with
  | .ok content => content_matches eng content query is_regex
  | _ => false

/-- A file as the content search observes it: name, size reported by
`os.path.getsize` (`none` models the caught `OSError`), and the read
outcome per encoding. -/
structure CFile where
  name : String
  size : Option Nat
  read : Enc → ReadOutcome

/-- Directory tree carrying content-search file metadata. -/
inductive CDir where
  | node (dirs : List (String × CDir)) (files : List CFile)

/-- Subdirectories of a content-search tree node. -/
def CDir.dirs : CDir → List (String × CDir)
  | .node ds _ => ds

/-- Files of a content-search tree node. -/
def CDir.files : CDir → List CFile
  | .node _ fs => fs

/-- The fixed data of one `search_files_by_content` call.  `pf` models the
float progress expression `min(int((dirs_processed / total_dirs) * 80) + 5,
85)` as an abstract function of `dirs_processed` (floating point is
abstracted; the C8 theorem assumes of `pf` only monotonicity and the
bounds `5 ≤ pf d ≤ 85`, which the float formula satisfies: float division
and multiplication by positive constants and `int` truncation are
monotone, the truncation is non-negative, and `min` caps at 85). -/
structure SCfg where
  fm : FileManager
  eng : RegexEngine
  query : String
  is_regex : Bool
  max_depth : Nat
  pf : Nat → Nat

/-- The per-file body of the content-search loop: skip if the path is
restricted, if `getsize` fails or exceeds 5 MiB (before any read), or if
the extension looks binary; otherwise run the encoding loop and record the
path on a match.  (The `files_processed` counter is incremented but never
read, and is omitted.) -/
def fileCheck (cfg : SCfg) (current : String) (f : CFile) : Option String :=
  let full_path := pathJoin current f.name
  if is_restricted_path cfg.fm full_path then none
  else
    match f.size with
    | none => none
    | some sz =>
      if sz > 5 * 1024 * 1024 then none
      else if is_likely_binary full_path then none
      else if fileMatchesLoop cfg.eng f.read cfg.query cfg.is_regex then some full_path
      else none

mutual

/-- The `os.walk` loop of `search_files_by_content` under the validated
start `validated`, threading `dirs_processed`.  Per visited directory the
counter is first incremented; a directory at depth `≥ max_depth`
contributes nothing and is not descended into (and reports no progress);
otherwise a progress report `(pf counter, 100)` is emitted when the
counter is divisible by 5, the files are scanned with `fileCheck`, and the
pruned subdirectories are walked in order.  Returns
`(matches, progress reports, final counter)`. -/
def cwalk (cfg : SCfg) (validated current : String) (t : CDir) (din : Nat) :
    List String × List (Nat × Nat) × Nat :=
  match t with
  | .node ds fs =>
    let d1 := din + 1
    if depthFrom validated current ≥ cfg.max_depth then ([], [], d1)
    else
      let reps0 := if d1 % 5 == 0 then [(cfg.pf d1, 100)] else []
      let fres := fs.filterMap (fileCheck cfg current)
      let sub := cwalkDirs cfg validated current ds d1
      (fres ++ sub.1, reps0 ++ sub.2.1, sub.2.2)

/-- Subdirectory descent of `cwalk`: restricted directories are pruned
(never visited, never counted); the rest are walked sequentially,
threading the directory counter. -/
def cwalkDirs (cfg : SCfg) (validated current : String) :
    List (String × CDir) → Nat → List String × List (Nat × Nat) × Nat
  | [], din => ([], [], din)
  | (d, sub) :: rest, din =>
    if is_restricted_path cfg.fm (pathJoin current d) then
      cwalkDirs cfg validated current rest din
    else
      let one := cwalk cfg validated (pathJoin current d) sub din
      let tail := cwalkDirs cfg validated current rest one.2.2
      (one.1 ++ tail.1, one.2.1 ++ tail.2.1, tail.2.2)

end

mutual

/-- Size measure for induction over `CDir`. -/
def cdirSize : CDir → Nat
  | .node ds _ => 1 + cdirListSize ds

/-- Size measure for induction over content subdirectory lists. -/
def cdirListSize : List (String × CDir) → Nat
  | [] => 0
  | (_, sub) :: rest => 1 + cdirSize sub + cdirListSize rest

end

/-- `FileManager.search_files_by_content` called with a progress callback:
the callback sees `(5, 100)` before the traversal, the walk-cadence
reports, and `(100, 100)` once at the very end; the report list is the
model of the callback invocation sequence.  A validation error aborts the
call (the terminal report is then never made).  `dirs_processed` starts at
0 and is shared across all walked roots. -/
def search_files_by_content (cfg : SCfg) (cwd : String) (fsAt : String → CDir)
    (path : Option String) : Except FMError (List String × List (Nat × Nat)) := do
  let r ← (match path with
    | none => cfg.fm.root_folders
    | some p => [p]).foldlM
    (fun (acc : List String × List (Nat × Nat) × Nat) search_path => do
      let v ← validate_path cfg.fm cwd search_path
      let w := cwalk cfg v v (fsAt v) acc.2.2
      pure (acc.1 ++ w.1, acc.2.1 ++ w.2.1, w.2.2)) ([], [], 0)
  pure (r.1, (5, 100) :: r.2.1 ++ [(100, 100)])

/-- Invariant of a stretch of walk progress reports: the counter does not
decrease, the reported percentages form a non-decreasing chain, and every
report is `(pf d, 100)` for some counter value `d` strictly inside the
stretch. -/
def RepsOK (pf : Nat → Nat) (din dout : Nat) (reps : List (Nat × Nat)) : Prop :=
  din ≤ dout ∧ List.Chain' (fun x y => x.1 ≤ y.1) reps ∧
    ∀ x ∈ reps, ∃ d, din < d ∧ d ≤ dout ∧ x = (pf d, 100)

/-- A file record reachable in a content tree, with its joined path. -/
inductive FileWithin : String → CDir → String → CFile → Prop where
  | here {current : String} {ds : List (String × CDir)} {fs : List CFile} {f : CFile} :
      f ∈ fs → FileWithin current (.node ds fs) (pathJoin current f.name) f
  | there {current : String} {ds : List (String × CDir)} {fs : List CFile}
      {d : String} {sub : CDir} {p : String} {f : CFile} :
      (d, sub) ∈ ds → FileWithin (pathJoin current d) sub p f →
      FileWithin current (.node ds fs) p f

/-- An engine on which every compile fails, modelling an invalid regex
(also usable for literal-mode tests, where the engine is never consulted). -/
def nullEngine : RegexEngine := ⟨fun _ => none⟩

/-- Read outcomes of the C3 counterexample file: both UTF-8 variants fail
to decode, UTF-16-LE decodes to non-matching text, UTF-16-BE to matching
text (e.g. a UTF-16-BE file whose byte stream is invalid UTF-8 and whose
byte-swapped reading scrambles the needle). -/
def cexRead : Enc → ReadOutcome
  | .utf8sig => .decodeErr
  | .utf8 => .decodeErr
  | .utf16le => .ok "lamp"
  | .utf16be => .ok "a needle here"
  | .latin1 => .ok "mojibake"
  | .eucjp => .ok "mojibake"
  | .iso2022jp => .ok "mojibake"

/-- Concrete stand-in for the float progress formula:
`min(int((d / 100) * 80) + 5, 85)` computed with exact integer division. -/
def pfConcrete (d : Nat) : Nat := min (4 * d / 5 + 5) 85

/-! ### Well-formedness of modelled trees

The theorems about string-level path structure assume the usual filesystem
well-formedness: entry names are nonempty and contain no separator, and
the starting path is nonempty and has no trailing separator. -/

/-- A legal entry name: nonempty, without a path separator. -/
def GoodName (s : String) : Prop := s.data ≠ [] ∧ '/' ∉ s.data

instance (s : String) : Decidable (GoodName s) := by
  unfold GoodName
  infer_instance

/-- A legal starting directory path: nonempty, no trailing separator. -/
def GoodRootStr (r : String) : Prop := r.data ≠ [] ∧ r.data.getLast? ≠ some '/'

instance (r : String) : Decidable (GoodRootStr r) := by
  unfold GoodRootStr
  infer_instance

/-- All names in the tree are legal. -/
inductive GoodDir : Dir → Prop where
  | node : ∀ ds fs,
      (∀ p ∈ ds, GoodName p.1) →
      (∀ f ∈ fs, GoodName f) →
      (∀ p ∈ ds, GoodDir p.2) →
      GoodDir (Dir.node ds fs)

/-- `a` is a directory strictly between `root` and the path `f`: `a`
extends `root` by at least one component and `f` lies strictly below
`a`. -/
def ancestorBetween (root a f : String) : Prop :=
  (∃ s, a.data = root.data ++ '/' :: s) ∧ ∃ t, f.data = a.data ++ '/' :: t

mutual

/-- Size measure used for induction over `Dir`. -/
def dirSize : Dir → Nat
  | .node ds _ => 1 + dirListSize ds

/-- Size measure used for induction over subdirectory lists. -/
def dirListSize : List (String × Dir) → Nat
  | [] => 0
  | (_, sub) :: rest => 1 + dirSize sub + dirListSize rest

end

/-! ### Spec-side notions and concrete managers used by the claims -/

/-- Spec notion of a path lying under a directory (the directory itself or
any path below it, component-wise).  This follows the spec's words "under a
configured root directory"; the code's own check is `strStartsWith`. -/
def underRootDir (r p : String) : Bool :=
  p == r || strStartsWith p (String.mk (r.data ++ ['/']))

/-- Manager over the single root `/data` with the default restrictions,
as in the spec's running scenario. -/
def fmData : FileManager := mkFileManager "/" ["/data"] [] [] [] true

/-- Manager whose single root `/tmp/ab` is a proper string prefix of the
sibling directory name `/tmp/abc`. -/
def fmAB : FileManager := mkFileManager "/" ["/tmp/ab"] [] [] [] true

/-- The scenario subdirectory `sub`, holding `b.txt`. -/
def exSub : Dir := .node [] ["b.txt"]

/-- The spec's running scenario tree for the root `/data`: `a.txt`, a
default-restricted `c.log`, a plain subdirectory `sub` and a
default-restricted `.git` directory. -/
def exTree : Dir := .node [("sub", exSub), (".git", .node [] ["config"])] ["a.txt", "c.log"]

/-- Concrete content-search configuration over `/data`. -/
def exSCfg : SCfg := ⟨fmData, nullEngine, "needle", false, 3, pfConcrete⟩

/-- A small matching file. -/
def exCFile : CFile := ⟨"a.txt", some 5, fun _ => .ok "hello NEEDLE"⟩

/-- A content tree with one matching file and one empty subdirectory. -/
def exCTree : CDir := .node [("sub", .node [] [])] [exCFile]

/-! ### Claims C1 and C2: the validation gate -/

theorem isPrefixOf_trans {a b c : List Char} (h1 : a.isPrefixOf b) (h2 : b.isPrefixOf c) :
    a.isPrefixOf c := by
  rw [List.isPrefixOf_iff_prefix] at h1 h2 ⊢
  exact h1.trans h2

/-- C1 (amended).  `validate(p)` raises `OutsideRootError` exactly when the
resolved absolute path does not start, as a raw string, with any configured
root.  Every path that lies under a root directory (component-wise) passes
the root check; but the converse direction of the claim fails, because the
string test also accepts sibling paths sharing a root's spelling as a
prefix (see the counterexample). -/
theorem validate_outside_root_amended (fm : FileManager) (cwd p : String) :
    (validate_path fm cwd p = .error .OutsideRootError ↔
      is_in_root_folders fm (abspath cwd (normpath p)) = false) ∧
    (∀ r ∈ fm.root_folders, underRootDir r (abspath cwd (normpath p)) = true →
      is_in_root_folders fm (abspath cwd (normpath p)) = true) := by
  constructor
  · unfold validate_path
    cases h : is_in_root_folders fm (abspath cwd (normpath p)) with
    | false => simp [h]
    | true =>
      simp only [h, Bool.not_true]
      by_cases hr : is_restricted_path fm (abspath cwd (normpath p)) = true <;>
        simp [hr]
  · intro r hr hu
    unfold underRootDir at hu
    unfold is_in_root_folders
    rw [List.any_eq_true]
    refine ⟨r, hr, ?_⟩
    rcases Bool.or_eq_true_iff.mp hu with h | h
    · rw [show (abspath cwd (normpath p)) = r from by
        simpa using h]
      simp [strStartsWith, List.isPrefixOf_iff_prefix]
    · unfold strStartsWith at h ⊢
      exact isPrefixOf_trans (by simp [List.isPrefixOf_iff_prefix]) h

/-- C1 counterexample.  With root `/tmp/ab`, the path `/tmp/abc/f.txt`
resolves under no configured root directory, yet `validate` does not raise
`OutsideRootError` — it succeeds — because `_is_in_root_folders` is a raw
string-prefix test and `/tmp/abc/f.txt` starts with the string `/tmp/ab`. -/
theorem validate_outside_root_counterexample :
    (∀ r ∈ fmAB.root_folders,
      underRootDir r (abspath "/" (normpath "/tmp/abc/f.txt")) = false) ∧
    validate_path fmAB "/" "/tmp/abc/f.txt" = .ok "/tmp/abc/f.txt" := by
  constructor
  · decide
  · rfl

/-- C1 witness: the amended theorem applied at a concrete outside path. -/
theorem validate_outside_root_witness :
    validate_path fmAB "/" "/elsewhere/x" = .error .OutsideRootError :=
  (validate_outside_root_amended fmAB "/" "/elsewhere/x").1.mpr (by decide)

/-- C2 (amended).  For a path that passes the root check and for which
`_is_restricted_path` holds, `validate` raises `RestrictedPathError`; the
spec examples `foo.pyc` and `secrets.pem` are restricted (their basenames
match the default file globs `*.pyc` and `*.pem`).  But the example
`.git/config` is not: `_categorize_patterns` sends `.git*` to the *file*
patterns (its basename contains a dot), and file patterns are matched
against the basename only, so a file inside a `.git` directory matches no
restriction and `validate` succeeds on it. -/
theorem validate_restricted_amended :
    (∀ (fm : FileManager) (cwd p : String),
      is_in_root_folders fm (abspath cwd (normpath p)) = true →
      is_restricted_path fm (abspath cwd (normpath p)) = true →
      validate_path fm cwd p = .error .RestrictedPathError) ∧
    validate_path fmData "/" "/data/foo.pyc" = .error .RestrictedPathError ∧
    validate_path fmData "/" "/data/secrets.pem" = .error .RestrictedPathError ∧
    validate_path fmData "/" "/data/.git/config" = .ok "/data/.git/config" := by
  refine ⟨?_, rfl, rfl, rfl⟩
  intro fm cwd p h1 h2
  unfold validate_path
  simp [h1, h2]

/-- C2 counterexample.  `/data/.git/config` lies under the root `/data`
and sits inside the default-restricted `.git` directory (the directory
itself is restricted), yet `validate` succeeds on it instead of raising
`RestrictedPathError`. -/
theorem validate_restricted_counterexample :
    validate_path fmData "/" "/data/.git/config" = .ok "/data/.git/config" ∧
    is_restricted_path fmData "/data/.git" = true := by
  exact ⟨rfl, rfl⟩

/-- C2 witness: the amended theorem applied at a concrete restricted path. -/
theorem validate_restricted_witness :
    validate_path fmData "/" "/data/x.pyc" = .error .RestrictedPathError :=
  validate_restricted_amended.1 fmData "/" "/data/x.pyc" (by decide) (by decide)

/-! ### Glob and walk lemmas -/

theorem globMatchFuel_nil_cons (n : Nat) (c : Char) (cs : List Char) :
    globMatchFuel n [] (c :: cs) = false := by
  cases n <;> simp [globMatchFuel]

theorem globMatchFuel_star (s : List Char) :
    ∀ n, s.length + 2 ≤ n → globMatchFuel n ['*'] s = true := by
  induction s with
  | nil =>
    intro n hn
    match n, hn with
    | m + 2, _ => simp [globMatchFuel]
  | cons c cs ih =>
    intro n hn
    match n, hn with
    | m + 1, h =>
      have hm : cs.length + 2 ≤ m := by
        simp only [List.length_cons] at h
        omega
      simp [globMatchFuel, globMatchFuel_nil_cons, ih m hm]

/-- The glob `*` matches every name. -/
theorem globMatch_star (s : List Char) : globMatch ['*'] s = true := by
  unfold globMatch
  exact globMatchFuel_star s _ (by simp; omega)

theorem filesLF_eq_filesNS (fm : FileManager) (current : String) (fs : List String) :
    fs.filterMap (fun f =>
      let full_path := pathJoin current f
      if is_restricted_path fm full_path then none else some full_path) =
    fs.filterMap (fun f =>
      let full_path := pathJoin current f
      if !is_restricted_path fm full_path && globMatch "*".data f.data
      then some full_path else none) := by
  induction fs with
  | nil => rfl
  | cons f rest ih =>
    simp only [List.filterMap_cons]
    have hstar : globMatch "*".data f.data = true := globMatch_star f.data
    cases hres : is_restricted_path fm (pathJoin current f) <;>
      simp [hres, hstar, ih]

theorem dirSize_pos (t : Dir) : 1 ≤ dirSize t := by
  cases t
  simp [dirSize]

theorem walkLF_eq_walkNS_aux (N : Nat) :
    (∀ fm v depth current t, dirSize t ≤ N →
      walkLF fm v depth current t = walkNS fm v "*" depth current t) ∧
    (∀ fm v depth current ds, dirListSize ds ≤ N →
      walkLFDirs fm v depth current ds = walkNSDirs fm v "*" depth current ds) := by
  induction N using Nat.strong_induction_on with
  | _ N ih =>
    constructor
    · intro fm v depth current t hN
      cases t with
      | node ds fs =>
        have hds : dirListSize ds < N := by
          simp only [dirSize] at hN
          omega
        simp only [walkLF, walkNS]
        split
        · rfl
        · rw [(ih _ hds).2 fm v depth current ds (le_refl _),
            filesLF_eq_filesNS fm current fs]
    · intro fm v depth current ds hN
      cases ds with
      | nil => simp [walkLFDirs, walkNSDirs]
      | cons p rest =>
        obtain ⟨d, sub⟩ := p
        have h1 : 1 ≤ dirSize sub := dirSize_pos sub
        have hsub : dirSize sub < N := by
          simp only [dirListSize] at hN
          omega
        have hrest : dirListSize rest < N := by
          simp only [dirListSize] at hN
          omega
        simp only [walkLFDirs, walkNSDirs]
        rw [(ih _ hrest).2 fm v depth current rest (le_refl _)]
        cases hres : is_restricted_path fm (pathJoin current d) <;>
          simp [hres, (ih _ hsub).1 fm v depth (pathJoin current d) sub (le_refl _)]

theorem walkLF_eq_walkNS (fm : FileManager) (v : String) (depth : Nat)
    (current : String) (t : Dir) :
    walkLF fm v depth current t = walkNS fm v "*" depth current t :=
  (walkLF_eq_walkNS_aux (dirSize t)).1 fm v depth current t (le_refl _)

/-- C10.  `search_files_by_name` with the glob `*` is extensionally the
same operation as `list_files` at equal depth: identical root resolution,
validation, depth pruning, restricted-directory pruning and per-file
restriction filtering, while `*` matches every basename — so the returned
path sequences coincide exactly. -/
theorem search_name_star_eq_list_files (fm : FileManager) (cwd : String)
    (fsAt : String → Dir) (path : Option String) (d : Nat) :
    search_files_by_name fm cwd fsAt "*" path d = list_files fm cwd fsAt path d := by
  unfold list_files search_files_by_name
  have hfun :
      (fun (acc : List String) search_path => do
        let v ← validate_path fm cwd search_path
        pure (acc ++ walkNS fm v "*" d v (fsAt v))) =
      (fun (acc : List String) current_path =>
        (do
          let v ← validate_path fm cwd current_path
          pure (acc ++ walkLF fm v d v (fsAt v)) :
          Except FMError (List String))) := by
    funext acc p
    simp only [walkLF_eq_walkNS]
  rw [hfun]

/-! ### Path-structure lemmas -/

theorem isabs_false_of_goodName (b : String) (hb : GoodName b) : isabs b = false := by
  obtain ⟨hne, hmem⟩ := hb
  unfold isabs strStartsWith
  cases hdata : b.data with
  | nil => exact absurd hdata hne
  | cons c t =>
    have hc : ¬ ('/' = c) := by
      intro h
      exact hmem (by rw [hdata, ← h]; exact List.mem_cons_self _ _)
    show (['/'].isPrefixOf (c :: t)) = false
    simp [List.isPrefixOf, hc]

theorem pathJoin_data (a b : String) (ha : GoodRootStr a) (hb : GoodName b) :
    (pathJoin a b).data = a.data ++ '/' :: b.data := by
  unfold pathJoin
  have h1 : (a.data == []) = false := beq_eq_false_iff_ne.mpr ha.1
  have h2 : (a.data.getLast? == some '/') = false := beq_eq_false_iff_ne.mpr ha.2
  simp [isabs_false_of_goodName b hb, h1, h2]

theorem getLast?_slash_cons_ne (l : List Char) (hne : l ≠ []) (hmem : '/' ∉ l) :
    ('/' :: l).getLast? ≠ some '/' := by
  cases l with
  | nil => exact absurd rfl hne
  | cons c t =>
    rw [List.getLast?_cons_cons, List.getLast?_eq_getLast _ (by simp)]
    intro h
    have hm := List.getLast_mem (l := c :: t) (by simp)
    simp only [Option.some.injEq] at h
    rw [h] at hm
    exact hmem hm

theorem goodRootStr_pathJoin (a b : String) (ha : GoodRootStr a) (hb : GoodName b) :
    GoodRootStr (pathJoin a b) := by
  constructor
  · rw [pathJoin_data a b ha hb]
    simp
  · rw [pathJoin_data a b ha hb, List.getLast?_append_cons]
    exact getLast?_slash_cons_ne b.data hb.1 hb.2

theorem depthFrom_self (v : String) : depthFrom v v = 0 := by
  unfold depthFrom
  rw [List.drop_length]
  rfl

theorem depthFrom_of_data_eq (v current : String) (suffix : List Char)
    (h : current.data = v.data ++ suffix) :
    depthFrom v current = suffix.count '/' := by
  unfold depthFrom
  rw [h, List.drop_left]

theorem count_slash_goodName (b : String) (hb : GoodName b) :
    b.data.count '/' = 0 :=
  List.count_eq_zero.mpr hb.2

theorem depthFrom_pathJoin_one (root d : String) (hr : GoodRootStr root)
    (hd : GoodName d) :
    depthFrom root (pathJoin root d) = 1 := by
  rw [depthFrom_of_data_eq root _ ('/' :: d.data) (pathJoin_data root d hr hd),
    List.count_cons_self, count_slash_goodName d hd]

/-! ### Claim C4: depth semantics of `list_files` -/

theorem walkLFDirs_depth_one (fm : FileManager) (root : String)
    (ds : List (String × Dir)) (hr : GoodRootStr root)
    (hnames : ∀ p ∈ ds, GoodName p.1) :
    walkLFDirs fm root 1 root ds = [] := by
  induction ds with
  | nil => simp [walkLFDirs]
  | cons p rest ih =>
    obtain ⟨d, sub⟩ := p
    have hd : GoodName d := hnames (d, sub) (List.mem_cons_self _ _)
    simp only [walkLFDirs]
    rw [ih (fun q hq => hnames q (List.mem_cons_of_mem _ hq))]
    cases sub with
    | node ds2 fs2 =>
      cases hres : is_restricted_path fm (pathJoin root d) with
      | true => simp [hres]
      | false =>
        simp only [hres, Bool.false_eq_true, if_false, List.append_nil]
        simp [walkLF, depthFrom_pathJoin_one root d hr hd]

theorem mem_walkLFDirs (fm : FileManager) (v : String) (depth : Nat)
    (current : String) (ds : List (String × Dir)) (d : String) (sub : Dir)
    (x : String) (hmem : (d, sub) ∈ ds)
    (hres : is_restricted_path fm (pathJoin current d) = false)
    (hx : x ∈ walkLF fm v depth (pathJoin current d) sub) :
    x ∈ walkLFDirs fm v depth current ds := by
  induction ds with
  | nil => cases hmem
  | cons p rest ih =>
    obtain ⟨d', sub'⟩ := p
    simp only [walkLFDirs]
    rcases List.mem_cons.mp hmem with h | h
    · injection h with h1 h2
      subst h1
      subst h2
      exact List.mem_append_left _ (by rw [if_neg (by simp [hres])]; exact hx)
    · exact List.mem_append_right _ (ih h)

/-- C4.  In a well-formed tree, `list_files` at `depth = 1` returns
exactly the non-restricted files directly inside the starting directory —
never a file strictly inside a first-level subdirectory — while at
`depth = 2` every non-restricted file directly inside a non-restricted
first-level subdirectory is included. -/
theorem list_files_depth_semantics (fm : FileManager) (root : String) (t : Dir)
    (hr : GoodRootStr root) (ht : GoodDir t) :
    walkLF fm root 1 root t =
      t.files.filterMap (fun f =>
        let full_path := pathJoin root f
        if is_restricted_path fm full_path then none else some full_path) ∧
    (∀ d sub f, (d, sub) ∈ t.dirs → f ∈ sub.files →
      is_restricted_path fm (pathJoin root d) = false →
      is_restricted_path fm (pathJoin (pathJoin root d) f) = false →
      pathJoin (pathJoin root d) f ∈ walkLF fm root 2 root t) := by
  obtain ⟨ds, fs⟩ := t
  cases ht with
  | node _ _ hdn hfn hdd =>
    constructor
    · simp only [walkLF, Dir.files]
      rw [if_neg (by rw [depthFrom_self]; omega),
        walkLFDirs_depth_one fm root ds hr hdn]
      simp
    · intro d sub f hmem hf hres1 hres2
      simp only [Dir.dirs] at hmem
      have hd : GoodName d := hdn _ hmem
      simp only [walkLF]
      rw [if_neg (by rw [depthFrom_self]; omega)]
      apply List.mem_append_right
      apply mem_walkLFDirs fm root 2 root ds d sub _ hmem hres1
      cases sub with
      | node ds2 fs2 =>
        simp only [Dir.files] at hf
        simp only [walkLF]
        rw [if_neg (by rw [depthFrom_pathJoin_one root d hr hd]; omega)]
        apply List.mem_append_left
        exact List.mem_filterMap.mpr ⟨f, hf, by simp [hres2]⟩

theorem exTreeGood : GoodDir exTree := by
  refine .node _ _ (by decide) (by decide) ?_
  intro p hp
  rcases hp with _ | ⟨_, hp⟩
  · exact .node _ _ (by decide) (by decide) (by intro q hq; cases hq)
  · rcases hp with _ | ⟨_, hp⟩
    · exact .node _ _ (by decide) (by decide) (by intro q hq; cases hq)
    · cases hp

/-- C4 witness: over the scenario tree (root `/data` holding `a.txt`,
`c.log` and subdirectories `sub` and `.git`), depth 1 lists exactly
`/data/a.txt` and depth 2 also reaches `/data/sub/b.txt`. -/
theorem list_files_depth_semantics_witness :
    walkLF fmData "/data" 1 "/data" exTree = ["/data/a.txt"] ∧
    pathJoin (pathJoin "/data" "sub") "b.txt" ∈ walkLF fmData "/data" 2 "/data" exTree := by
  have h := list_files_depth_semantics fmData "/data" exTree (by decide) exTreeGood
  constructor
  · rw [h.1]
    decide
  · exact h.2 "sub" exSub "b.txt" (List.mem_cons_self _ _) (by decide) (by decide)
      (by decide)

/-! ### Claim C5: restricted-subtree pruning in `list_files` -/

theorem seg_split : ∀ (d : List Char), '/' ∉ d → ∀ s t r : List Char,
    s ++ '/' :: t = d ++ '/' :: r →
    (s = d ∧ t = r) ∨ ∃ s', s = d ++ '/' :: s' := by
  intro d
  induction d with
  | nil =>
    intro _ s t r h
    cases s with
    | nil =>
      have h2 : t = r := by simpa using h
      exact Or.inl ⟨rfl, h2⟩
    | cons c s' =>
      simp only [List.cons_append, List.nil_append, List.cons.injEq] at h
      exact Or.inr ⟨s', by simp [h.1]⟩
  | cons a d' ih =>
    intro hd s t r h
    have ha : a ≠ '/' := fun hh => hd (by rw [hh]; exact List.mem_cons_self _ _)
    cases s with
    | nil =>
      simp only [List.nil_append, List.cons_append, List.cons.injEq] at h
      exact absurd h.1.symm ha
    | cons c s' =>
      simp only [List.cons_append, List.cons.injEq] at h
      obtain ⟨hc, hrest⟩ := h
      have hd' : '/' ∉ d' := fun hh => hd (List.mem_cons_of_mem _ hh)
      rcases ih hd' s' t r hrest with ⟨h1, h2⟩ | ⟨s'', h3⟩
      · exact Or.inl ⟨by rw [hc, h1], h2⟩
      · exact Or.inr ⟨s'', by rw [hc, h3]; rfl⟩

theorem goodName_of_goodDir_files {ds : List (String × Dir)} {fs : List String}
    (ht : GoodDir (Dir.node ds fs)) : ∀ f ∈ fs, GoodName f := by
  cases ht with
  | node _ _ _ hfn _ => exact hfn

theorem walk_extends_aux (N : Nat) :
    (∀ fm v depth current t, dirSize t ≤ N → GoodRootStr current → GoodDir t →
      ∀ f ∈ walkLF fm v depth current t, ∃ r, f.data = current.data ++ '/' :: r) ∧
    (∀ fm v depth current ds, dirListSize ds ≤ N → GoodRootStr current →
      (∀ p ∈ ds, GoodName p.1) → (∀ p ∈ ds, GoodDir p.2) →
      ∀ f ∈ walkLFDirs fm v depth current ds, ∃ r, f.data = current.data ++ '/' :: r) := by
  induction N using Nat.strong_induction_on with
  | _ N ih =>
    constructor
    · intro fm v depth current t hN hroot ht f hf
      obtain ⟨ds, fs⟩ := t
      have hds : dirListSize ds < N := by
        simp only [dirSize] at hN
        omega
      simp only [walkLF] at hf
      split at hf
      · cases hf
      · rcases List.mem_append.mp hf with h | h
        · obtain ⟨g, hg, heq⟩ := List.mem_filterMap.mp h
          have hgood : GoodName g := goodName_of_goodDir_files ht g hg
          by_cases hres : is_restricted_path fm (pathJoin current g) = true
          · simp [hres] at heq
          · simp only [Bool.not_eq_true] at hres
            simp only [hres, Bool.false_eq_true, if_false, Option.some.injEq] at heq
            subst heq
            exact ⟨g.data, pathJoin_data current g hroot hgood⟩
        · cases ht with
          | node _ _ hdn hfn hdd =>
            exact (ih _ hds).2 fm v depth current ds (le_refl _) hroot hdn hdd f h
    · intro fm v depth current ds hN hroot hdn hdd f hf
      cases ds with
      | nil => cases hf
      | cons p rest =>
        obtain ⟨d, sub⟩ := p
        have h1 : 1 ≤ dirSize sub := dirSize_pos sub
        have hsub : dirSize sub < N := by
          simp only [dirListSize] at hN
          omega
        have hrest : dirListSize rest < N := by
          simp only [dirListSize] at hN
          omega
        have hd : GoodName d := hdn (d, sub) (List.mem_cons_self _ _)
        simp only [walkLFDirs] at hf
        rcases List.mem_append.mp hf with h | h
        · split at h
          · cases h
          · obtain ⟨r, hr⟩ := (ih _ hsub).1 fm v depth (pathJoin current d) sub
              (le_refl _) (goodRootStr_pathJoin current d hroot hd)
              (hdd (d, sub) (List.mem_cons_self _ _)) f h
            refine ⟨d.data ++ '/' :: r, ?_⟩
            rw [hr, pathJoin_data current d hroot hd]
            simp
        · exact (ih _ hrest).2 fm v depth current rest (le_refl _) hroot
            (fun q hq => hdn q (List.mem_cons_of_mem _ hq))
            (fun q hq => hdd q (List.mem_cons_of_mem _ hq)) f h

theorem walk_ancestors_aux (N : Nat) :
    (∀ fm v depth current t, dirSize t ≤ N → GoodRootStr current → GoodDir t →
      ∀ f ∈ walkLF fm v depth current t, ∀ a, ancestorBetween current a f →
        is_restricted_path fm a = false) ∧
    (∀ fm v depth current ds, dirListSize ds ≤ N → GoodRootStr current →
      (∀ p ∈ ds, GoodName p.1) → (∀ p ∈ ds, GoodDir p.2) →
      ∀ f ∈ walkLFDirs fm v depth current ds, ∀ a, ancestorBetween current a f →
        is_restricted_path fm a = false) := by
  induction N using Nat.strong_induction_on with
  | _ N ih =>
    constructor
    · intro fm v depth current t hN hroot ht f hf a ha
      obtain ⟨ds, fs⟩ := t
      have hds : dirListSize ds < N := by
        simp only [dirSize] at hN
        omega
      simp only [walkLF] at hf
      split at hf
      · cases hf
      · rcases List.mem_append.mp hf with h | h
        · obtain ⟨g, hg, heq⟩ := List.mem_filterMap.mp h
          have hgood : GoodName g := goodName_of_goodDir_files ht g hg
          by_cases hres : is_restricted_path fm (pathJoin current g) = true
          · simp [hres] at heq
          · simp only [Bool.not_eq_true] at hres
            simp only [hres, Bool.false_eq_true, if_false, Option.some.injEq] at heq
            subst heq
            obtain ⟨⟨s, hs⟩, ⟨t', ht'⟩⟩ := ha
            rw [pathJoin_data current g hroot hgood, hs, List.append_assoc] at ht'
            have h2 := List.append_cancel_left ht'
            have hg2 : g.data = s ++ '/' :: t' := by simpa using h2
            have hmem : '/' ∈ g.data := by
              rw [hg2]
              exact List.mem_append_right _ (List.mem_cons_self _ _)
            exact absurd hmem hgood.2
        · cases ht with
          | node _ _ hdn hfn hdd =>
            exact (ih _ hds).2 fm v depth current ds (le_refl _) hroot hdn hdd f h a ha
    · intro fm v depth current ds hN hroot hdn hdd f hf a ha
      cases ds with
      | nil => cases hf
      | cons p rest =>
        obtain ⟨d, sub⟩ := p
        have h1 : 1 ≤ dirSize sub := dirSize_pos sub
        have hsub : dirSize sub < N := by
          simp only [dirListSize] at hN
          omega
        have hrest : dirListSize rest < N := by
          simp only [dirListSize] at hN
          omega
        have hd : GoodName d := hdn (d, sub) (List.mem_cons_self _ _)
        simp only [walkLFDirs] at hf
        rcases List.mem_append.mp hf with h | h
        · by_cases hresb : is_restricted_path fm (pathJoin current d) = true
          · simp only [hresb, if_true] at h
            cases h
          · simp only [Bool.not_eq_true] at hresb
            simp only [hresb, Bool.false_eq_true, if_false] at h
            -- f was produced inside the walk of `pathJoin current d`
            obtain ⟨r, hr⟩ := (walk_extends_aux (dirSize sub)).1 fm v depth
              (pathJoin current d) sub (le_refl _)
              (goodRootStr_pathJoin current d hroot hd)
              (hdd (d, sub) (List.mem_cons_self _ _)) f h
            obtain ⟨⟨s, hs⟩, ⟨t', ht'⟩⟩ := ha
            have hfd : f.data = current.data ++ ('/' :: d.data ++ '/' :: r) := by
              rw [hr, pathJoin_data current d hroot hd, List.append_assoc]
            have hfd2 : f.data = current.data ++ ('/' :: s ++ '/' :: t') := by
              rw [ht', hs, List.append_assoc]
            have hcanc : s ++ '/' :: t' = d.data ++ '/' :: r := by
              have h2 := List.append_cancel_left (hfd2.symm.trans hfd)
              simpa using h2
            rcases seg_split d.data hd.2 s t' r hcanc with ⟨h1', _⟩ | ⟨s', h3⟩
            · have haeq : a = pathJoin current d := by
                apply String.ext
                rw [hs, h1', pathJoin_data current d hroot hd]
              rw [haeq]
              exact hresb
            · apply (ih _ hsub).1 fm v depth (pathJoin current d) sub (le_refl _)
                (goodRootStr_pathJoin current d hroot hd)
                (hdd (d, sub) (List.mem_cons_self _ _)) f h a
              refine ⟨⟨s', ?_⟩, ⟨t', ht'⟩⟩
              rw [hs, h3, pathJoin_data current d hroot hd]
              simp
        · exact (ih _ hrest).2 fm v depth current rest (le_refl _) hroot
            (fun q hq => hdn q (List.mem_cons_of_mem _ hq))
            (fun q hq => hdd q (List.mem_cons_of_mem _ hq)) f h a ha

theorem walkLFvis_fst_aux (N : Nat) :
    (∀ fm v depth current t, dirSize t ≤ N →
      (walkLFvis fm v depth current t).1 = walkLF fm v depth current t) ∧
    (∀ fm v depth current ds, dirListSize ds ≤ N →
      (walkLFvisDirs fm v depth current ds).1 = walkLFDirs fm v depth current ds) := by
  induction N using Nat.strong_induction_on with
  | _ N ih =>
    constructor
    · intro fm v depth current t hN
      obtain ⟨ds, fs⟩ := t
      have hds : dirListSize ds < N := by
        simp only [dirSize] at hN
        omega
      simp only [walkLFvis, walkLF]
      split
      · rfl
      · simp only []
        rw [(ih _ hds).2 fm v depth current ds (le_refl _)]
    · intro fm v depth current ds hN
      cases ds with
      | nil => simp [walkLFvisDirs, walkLFDirs]
      | cons p rest =>
        obtain ⟨d, sub⟩ := p
        have h1 : 1 ≤ dirSize sub := dirSize_pos sub
        have hsub : dirSize sub < N := by
          simp only [dirListSize] at hN
          omega
        have hrest : dirListSize rest < N := by
          simp only [dirListSize] at hN
          omega
        simp only [walkLFvisDirs, walkLFDirs]
        cases hres : is_restricted_path fm (pathJoin current d) <;>
          simp [hres, (ih _ hsub).1 fm v depth (pathJoin current d) sub (le_refl _),
            (ih _ hrest).2 fm v depth current rest (le_refl _)]

theorem walkLFvis_visited_aux (N : Nat) :
    (∀ fm v depth current t, dirSize t ≤ N →
      ∀ a ∈ (walkLFvis fm v depth current t).2,
        a = current ∨ is_restricted_path fm a = false) ∧
    (∀ fm v depth current ds, dirListSize ds ≤ N →
      ∀ a ∈ (walkLFvisDirs fm v depth current ds).2,
        is_restricted_path fm a = false) := by
  induction N using Nat.strong_induction_on with
  | _ N ih =>
    constructor
    · intro fm v depth current t hN a ha
      obtain ⟨ds, fs⟩ := t
      have hds : dirListSize ds < N := by
        simp only [dirSize] at hN
        omega
      simp only [walkLFvis] at ha
      split at ha
      · exact Or.inl (by simpa using ha)
      · simp only [List.mem_cons] at ha
        rcases ha with h | h
        · exact Or.inl h
        · exact Or.inr ((ih _ hds).2 fm v depth current ds (le_refl _) a h)
    · intro fm v depth current ds hN a ha
      cases ds with
      | nil => cases ha
      | cons p rest =>
        obtain ⟨d, sub⟩ := p
        have h1 : 1 ≤ dirSize sub := dirSize_pos sub
        have hsub : dirSize sub < N := by
          simp only [dirListSize] at hN
          omega
        have hrest : dirListSize rest < N := by
          simp only [dirListSize] at hN
          omega
        simp only [walkLFvisDirs] at ha
        by_cases hres : is_restricted_path fm (pathJoin current d) = true
        · simp only [hres, if_true] at ha
          exact (ih _ hrest).2 fm v depth current rest (le_refl _) a ha
        · simp only [Bool.not_eq_true] at hres
          simp only [hres, Bool.false_eq_true, if_false] at ha
          rcases List.mem_append.mp ha with h | h
          · rcases (ih _ hsub).1 fm v depth (pathJoin current d) sub (le_refl _) a h with
              heq | hfalse
            · rw [heq]
              exact hres
            · exact hfalse
          · exact (ih _ hrest).2 fm v depth current rest (le_refl _) a h

/-- C5.  In a well-formed tree, `list_files`' walk (1) never returns a
path with a restricted ancestor directory strictly between the validated
start and the file — transitively, at any distance — and moreover (2)
restricted subtrees are pruned before descent rather than filtered from
the output: the instrumented walk `walkLFvis` visits, beyond the start,
only directories that are not restricted (so nothing below a restricted
directory is ever visited), while returning exactly `walkLF`'s files. -/
theorem list_files_restricted_pruning (fm : FileManager) (v : String)
    (depth : Nat) (root : String) (t : Dir)
    (hr : GoodRootStr root) (ht : GoodDir t) :
    (walkLFvis fm v depth root t).1 = walkLF fm v depth root t ∧
    (∀ f ∈ walkLF fm v depth root t, ∀ a, ancestorBetween root a f →
      is_restricted_path fm a = false) ∧
    (∀ a ∈ (walkLFvis fm v depth root t).2,
      a = root ∨ is_restricted_path fm a = false) := by
  refine ⟨(walkLFvis_fst_aux (dirSize t)).1 fm v depth root t (le_refl _), ?_, ?_⟩
  · exact (walk_ancestors_aux (dirSize t)).1 fm v depth root t (le_refl _) hr ht
  · exact (walkLFvis_visited_aux (dirSize t)).1 fm v depth root t (le_refl _)

/-- C5 witness: from `/data/sub/b.txt` being listed at depth 2 in the
scenario tree, the theorem yields that its ancestor `/data/sub` is not
restricted. -/
theorem list_files_restricted_pruning_witness :
    is_restricted_path fmData "/data/sub" = false :=
  (list_files_restricted_pruning fmData "/data" 2 "/data" exTree (by decide)
      exTreeGood).2.1
    "/data/sub/b.txt" (by decide) "/data/sub"
    ⟨⟨"sub".data, by decide⟩, ⟨"b.txt".data, by decide⟩⟩

/-! ### Claim C3: the encoding loop -/

theorem tryEncodings_eq_takeWhile (eng : RegexEngine) (read : Enc → ReadOutcome)
    (query : String) (is_regex : Bool) :
    ∀ l : List Enc, tryEncodings eng read query is_regex l =
      (l.takeWhile (notIOErr read)).any (encMatches eng read query is_regex) := by
  intro l
  induction l with
  | nil => rfl
  | cons e rest ih =>
    cases hr : read e with
    | ok content =>
      have h1 : notIOErr read e = true := by simp [notIOErr, hr]
      have h2 : encMatches eng read query is_regex e =
          content_matches eng content query is_regex := by
        simp [encMatches, hr]
      simp only [tryEncodings, hr, List.takeWhile_cons, h1, if_true, List.any_cons, h2]
      cases hm : content_matches eng content query is_regex <;> simp [hm, ih]
    | decodeErr =>
      have h1 : notIOErr read e = true := by simp [notIOErr, hr]
      have h2 : encMatches eng read query is_regex e = false := by
        simp [encMatches, hr]
      simp only [tryEncodings, hr, List.takeWhile_cons, h1, if_true, List.any_cons, h2]
      simp [ih]
    | ioErr =>
      have h1 : notIOErr read e = false := by simp [notIOErr, hr]
      simp [tryEncodings, hr, List.takeWhile_cons, h1]

/-- C3 (amended).  For a surviving file the encoding loop stops at the
first encoding whose decode succeeds *and* matches (recording the file),
or at the first I/O error (abandoning the file); a successful decode whose
content does not match does **not** stop the loop — later encodings are
still tried.  Hence the file is recorded iff some encoding before the
first I/O error decodes to matching content, not iff the first successful
decode matches. -/
theorem content_search_encoding_loop (eng : RegexEngine) (read : Enc → ReadOutcome)
    (query : String) (is_regex : Bool) :
    fileMatchesLoop eng read query is_regex =
      (encodings.takeWhile (notIOErr read)).any (encMatches eng read query is_regex) :=
  tryEncodings_eq_takeWhile eng read query is_regex encodings

/-- C3 counterexample.  A file whose first successful decode (UTF-16-LE,
`"lamp"`) does not match the query `"needle"` is nevertheless recorded,
because a later encoding (UTF-16-BE) decodes to matching content: contrary
to the claim, the first successful decode is not authoritative and later
encodings are attempted after a successful non-matching decode. -/
theorem content_search_encoding_loop_counterexample :
    fileMatchesLoop nullEngine cexRead "needle" false = true ∧
    cexRead .utf16le = .ok "lamp" ∧
    content_matches nullEngine "lamp" "needle" false = false ∧
    fileMatchesFirstDecode nullEngine cexRead "needle" false = false :=
  ⟨by decide, rfl, by decide, by decide⟩

/-! ### Claim C6: invalid regex yields an empty result -/

theorem tryEncodings_invalid_regex (eng : RegexEngine) (read : Enc → ReadOutcome)
    (query : String) (hc : eng.compile query = none) :
    ∀ l, tryEncodings eng read query true l = false := by
  intro l
  induction l with
  | nil => rfl
  | cons e rest ih =>
    cases hr : read e with
    | ok content =>
      have hm : content_matches eng content query true = false := by
        simp [content_matches, hc]
      simp [tryEncodings, hr, hm, ih]
    | decodeErr =>
      simp only [tryEncodings, hr]
      exact ih
    | ioErr => simp [tryEncodings, hr]

theorem fileCheck_invalid_regex (cfg : SCfg) (current : String) (f : CFile)
    (hc : cfg.eng.compile cfg.query = none) (hreg : cfg.is_regex = true) :
    fileCheck cfg current f = none := by
  have hloop : fileMatchesLoop cfg.eng f.read cfg.query cfg.is_regex = false := by
    rw [hreg]
    exact tryEncodings_invalid_regex cfg.eng f.read cfg.query hc encodings
  unfold fileCheck
  cases hres : is_restricted_path cfg.fm (pathJoin current f.name)
  · cases hsz : f.size with
    | none => simp [hres]
    | some sz => simp [hres, hloop]
  · simp [hres]

theorem cwalk_invalid_regex_aux (cfg : SCfg)
    (hc : cfg.eng.compile cfg.query = none) (hreg : cfg.is_regex = true) (N : Nat) :
    (∀ validated current t din, cdirSize t ≤ N →
      (cwalk cfg validated current t din).1 = []) ∧
    (∀ validated current ds din, cdirListSize ds ≤ N →
      (cwalkDirs cfg validated current ds din).1 = []) := by
  induction N using Nat.strong_induction_on with
  | _ N ih =>
    constructor
    · intro validated current t din hN
      obtain ⟨ds, fs⟩ := t
      have hds : cdirListSize ds < N := by
        simp only [cdirSize] at hN
        omega
      simp only [cwalk]
      split
      · rfl
      · simp only []
        rw [(ih _ hds).2 validated current ds (din + 1) (le_refl _),
          List.filterMap_eq_nil_iff.mpr
            (fun f _ => fileCheck_invalid_regex cfg current f hc hreg)]
        rfl
    · intro validated current ds din hN
      cases ds with
      | nil => simp [cwalkDirs]
      | cons p rest =>
        obtain ⟨d, sub⟩ := p
        have h1 : 1 ≤ cdirSize sub := by
          cases sub
          simp [cdirSize]
        have hsub : cdirSize sub < N := by
          simp only [cdirListSize] at hN
          omega
        have hrest : cdirListSize rest < N := by
          simp only [cdirListSize] at hN
          omega
        simp only [cwalkDirs]
        cases hres : is_restricted_path cfg.fm (pathJoin current d) <;>
          simp [hres, (ih _ hsub).1 validated (pathJoin current d) sub din (le_refl _),
            (ih _ hrest).2 validated current rest, (ih _ hrest).2]

theorem cwalk_invalid_regex (cfg : SCfg)
    (hc : cfg.eng.compile cfg.query = none) (hreg : cfg.is_regex = true)
    (validated current : String) (t : CDir) (din : Nat) :
    (cwalk cfg validated current t din).1 = [] :=
  (cwalk_invalid_regex_aux cfg hc hreg (cdirSize t)).1 validated current t din (le_refl _)

theorem exceptBindOk {ε α β : Type} {x : Except ε α} {g : α → Except ε β} {b : β}
    (h : x >>= g = .ok b) : ∃ a, x = .ok a ∧ g a = .ok b := by
  cases x with
  | error e => simp [bind, Except.bind] at h
  | ok a => exact ⟨a, rfl, by simpa [bind, Except.bind] using h⟩

theorem cfold_first_nil (cfg : SCfg) (cwd : String) (fsAt : String → CDir)
    (hc : cfg.eng.compile cfg.query = none) (hreg : cfg.is_regex = true) :
    ∀ (paths : List String) (acc : List String × List (Nat × Nat) × Nat),
      acc.1 = [] →
      ∀ r, (paths.foldlM
        (fun (acc : List String × List (Nat × Nat) × Nat) search_path => do
          let v ← validate_path cfg.fm cwd search_path
          let w := cwalk cfg v v (fsAt v) acc.2.2
          pure (acc.1 ++ w.1, acc.2.1 ++ w.2.1, w.2.2)) acc) = .ok r → r.1 = [] := by
  intro paths
  induction paths with
  | nil =>
    intro acc hacc r h
    simp only [List.foldlM_nil, pure, Except.pure, Except.ok.injEq] at h
    rw [← h]
    exact hacc
  | cons p rest ih =>
    intro acc hacc r h
    rw [List.foldlM_cons] at h
    cases hv : validate_path cfg.fm cwd p with
    | error e =>
      rw [hv] at h
      simp only [bind, Except.bind] at h
      cases h
    | ok v =>
      rw [hv] at h
      simp only [bind, Except.bind, pure, Except.pure] at h
      exact ih _ (by simp [hacc, cwalk_invalid_regex cfg hc hreg]) r h

/-- C6.  With `is_regex = true` and a query the regex engine rejects
(`re.compile` raises `re.error`), every per-file match test is `False`:
the walk collects nothing from any tree, and a call whose starting path
validates completes normally with an empty result list — the invalid
regex never surfaces as an error to the caller. -/
theorem invalid_regex_empty_result (cfg : SCfg) (cwd : String)
    (fsAt : String → CDir) (path : Option String) (res : List String)
    (reps : List (Nat × Nat))
    (hc : cfg.eng.compile cfg.query = none) (hreg : cfg.is_regex = true)
    (hok : search_files_by_content cfg cwd fsAt path = .ok (res, reps)) :
    res = [] ∧ ∀ validated current t din, (cwalk cfg validated current t din).1 = [] := by
  refine ⟨?_, fun validated current t din => cwalk_invalid_regex cfg hc hreg _ _ _ _⟩
  unfold search_files_by_content at hok
  obtain ⟨r, hfold, hpure⟩ := exceptBindOk hok
  simp only [pure, Except.pure, Except.ok.injEq, Prod.mk.injEq] at hpure
  rw [← hpure.1]
  exact cfold_first_nil cfg cwd fsAt hc hreg _ ([], [], 0) rfl r hfold

/-- C6 witness: a concrete regex-mode search with the always-failing
engine over a tree whose file textually contains the pattern still
returns `ok` with an empty list. -/
theorem invalid_regex_empty_result_witness :
    ([] : List String) = [] ∧
    ∀ validated current t din,
      (cwalk ⟨fmData, nullEngine, "(unbalanced", true, 3, pfConcrete⟩
        validated current t din).1 = [] := by
  refine invalid_regex_empty_result ⟨fmData, nullEngine, "(unbalanced", true, 3, pfConcrete⟩
    "/" (fun _ => exCTree) (some "/data") [] [(5, 100), (100, 100)] rfl rfl ?_
  rfl

/-! ### Claim C7: the 5 MiB size filter -/

theorem fileCheck_some_inv (cfg : SCfg) (current : String) (f : CFile) (p : String)
    (h : fileCheck cfg current f = some p) :
    p = pathJoin current f.name ∧
    is_restricted_path cfg.fm (pathJoin current f.name) = false ∧
    (∃ sz, f.size = some sz ∧ sz ≤ 5 * 1024 * 1024) ∧
    is_likely_binary (pathJoin current f.name) = false ∧
    fileMatchesLoop cfg.eng f.read cfg.query cfg.is_regex = true := by
  simp only [fileCheck] at h
  split at h
  next hres => cases h
  next hres =>
    split at h
    next => cases h
    next sz hsz =>
      split at h
      next hbig => cases h
      next hbig =>
        split at h
        next hbin => cases h
        next hbin =>
          split at h
          next hloop =>
            injection h with h'
            subst h'
            exact ⟨rfl, by simpa using hres, ⟨sz, hsz, by omega⟩, by simpa using hbin,
              hloop⟩
          next => cases h

theorem fileCheck_some_of (cfg : SCfg) (current : String) (f : CFile)
    (hres : is_restricted_path cfg.fm (pathJoin current f.name) = false)
    (sz : Nat) (hsz : f.size = some sz) (hle : sz ≤ 5 * 1024 * 1024)
    (hbin : is_likely_binary (pathJoin current f.name) = false)
    (hloop : fileMatchesLoop cfg.eng f.read cfg.query cfg.is_regex = true) :
    fileCheck cfg current f = some (pathJoin current f.name) := by
  unfold fileCheck
  simp only [hres, hsz, Bool.false_eq_true, if_false]
  rw [if_neg (by omega)]
  simp [hbin, hloop]

theorem cwalk_size_limit_aux (cfg : SCfg) (N : Nat) :
    (∀ validated current t din, cdirSize t ≤ N →
      ∀ p ∈ (cwalk cfg validated current t din).1,
        ∃ f, FileWithin current t p f ∧
          ∃ sz, f.size = some sz ∧ sz ≤ 5 * 1024 * 1024) ∧
    (∀ validated current ds din, cdirListSize ds ≤ N →
      ∀ p ∈ (cwalkDirs cfg validated current ds din).1,
        ∃ d sub f, (d, sub) ∈ ds ∧ FileWithin (pathJoin current d) sub p f ∧
          ∃ sz, f.size = some sz ∧ sz ≤ 5 * 1024 * 1024) := by
  induction N using Nat.strong_induction_on with
  | _ N ih =>
    constructor
    · intro validated current t din hN p hp
      obtain ⟨ds, fs⟩ := t
      have hds : cdirListSize ds < N := by
        simp only [cdirSize] at hN
        omega
      simp only [cwalk] at hp
      split at hp
      · cases hp
      · simp only [] at hp
        rcases List.mem_append.mp hp with h | h
        · obtain ⟨f, hf, hfc⟩ := List.mem_filterMap.mp h
          obtain ⟨hp', hres', hsz', hbin', hloop'⟩ := fileCheck_some_inv cfg current f p hfc
          subst hp'
          exact ⟨f, .here hf, hsz'⟩
        · obtain ⟨d, sub, f, hmem, hwithin, hsz⟩ :=
            (ih _ hds).2 validated current ds (din + 1) (le_refl _) p h
          exact ⟨f, .there hmem hwithin, hsz⟩
    · intro validated current ds din hN p hp
      cases ds with
      | nil => cases hp
      | cons q rest =>
        obtain ⟨d, sub⟩ := q
        have h1 : 1 ≤ cdirSize sub := by
          cases sub
          simp [cdirSize]
        have hsub : cdirSize sub < N := by
          simp only [cdirListSize] at hN
          omega
        have hrest : cdirListSize rest < N := by
          simp only [cdirListSize] at hN
          omega
        simp only [cwalkDirs] at hp
        by_cases hres : is_restricted_path cfg.fm (pathJoin current d) = true
        · simp only [hres, if_true] at hp
          obtain ⟨d', sub', f, hmem, hw, hs⟩ :=
            (ih _ hrest).2 validated current rest din (le_refl _) p hp
          exact ⟨d', sub', f, List.mem_cons_of_mem _ hmem, hw, hs⟩
        · simp only [Bool.not_eq_true] at hres
          simp only [hres, Bool.false_eq_true, if_false] at hp
          rcases List.mem_append.mp hp with h | h
          · obtain ⟨f, hw, hs⟩ :=
              (ih _ hsub).1 validated (pathJoin current d) sub din (le_refl _) p h
            exact ⟨d, sub, f, List.mem_cons_self _ _, hw, hs⟩
          · obtain ⟨d', sub', f, hmem, hw, hs⟩ :=
              (ih _ hrest).2 validated current rest _ (le_refl _) p h
            exact ⟨d', sub', f, List.mem_cons_of_mem _ hmem, hw, hs⟩

/-- C7.  (1) Every path the content-search walk returns comes from a file
record whose `getsize` succeeded with at most 5 MiB = 5*1024*1024 bytes —
a larger file is skipped before any read, so it never appears in the
result whatever its content; and (2) the size filter does not exclude
small files: a non-restricted, non-binary file of size at most the limit,
directly inside a directory within the depth bound, whose encoding loop
matches, is returned. -/
theorem content_search_size_limit (cfg : SCfg) (validated current : String)
    (t : CDir) (din : Nat) :
    (∀ p ∈ (cwalk cfg validated current t din).1,
      ∃ f, FileWithin current t p f ∧
        ∃ sz, f.size = some sz ∧ sz ≤ 5 * 1024 * 1024) ∧
    (∀ f ∈ t.files, depthFrom validated current < cfg.max_depth →
      is_restricted_path cfg.fm (pathJoin current f.name) = false →
      ∀ sz, f.size = some sz → sz ≤ 5 * 1024 * 1024 →
      is_likely_binary (pathJoin current f.name) = false →
      fileMatchesLoop cfg.eng f.read cfg.query cfg.is_regex = true →
      pathJoin current f.name ∈ (cwalk cfg validated current t din).1) := by
  constructor
  · exact (cwalk_size_limit_aux cfg (cdirSize t)).1 validated current t din (le_refl _)
  · intro f hf hdepth hres sz hsz hle hbin hloop
    obtain ⟨ds, fs⟩ := t
    simp only [CDir.files] at hf
    simp only [cwalk]
    rw [if_neg (by omega)]
    simp only []
    apply List.mem_append_left
    exact List.mem_filterMap.mpr
      ⟨f, hf, fileCheck_some_of cfg current f hres sz hsz hle hbin hloop⟩

/-- C7 witness: part (2) applied to the concrete 5-byte matching file
`/data/a.txt`, which the search indeed returns. -/
theorem content_search_size_limit_witness :
    pathJoin "/data" "a.txt" ∈ (cwalk exSCfg "/data" "/data" exCTree 0).1 :=
  (content_search_size_limit exSCfg "/data" "/data" exCTree 0).2 exCFile
    (List.mem_cons_self _ _) (by decide) (by decide) 5 rfl (by decide) (by decide)
    (by decide)

/-! ### Claim C8: progress reporting -/

theorem RepsOK_nil (pf : Nat → Nat) (d : Nat) : RepsOK pf d d [] :=
  ⟨le_refl _, List.chain'_nil, fun x hx => absurd hx (List.not_mem_nil x)⟩

theorem RepsOK_mono_out (pf : Nat → Nat) {din dout dout' : Nat} {l : List (Nat × Nat)}
    (h : RepsOK pf din dout l) (hle : dout ≤ dout') : RepsOK pf din dout' l := by
  obtain ⟨h1, h2, h3⟩ := h
  refine ⟨le_trans h1 hle, h2, fun x hx => ?_⟩
  obtain ⟨d, hd1, hd2, hd3⟩ := h3 x hx
  exact ⟨d, hd1, le_trans hd2 hle, hd3⟩

theorem RepsOK_append (pf : Nat → Nat) (hmono : ∀ a b, a ≤ b → pf a ≤ pf b)
    {din dmid dout : Nat} {l1 l2 : List (Nat × Nat)}
    (h1 : RepsOK pf din dmid l1) (h2 : RepsOK pf dmid dout l2) :
    RepsOK pf din dout (l1 ++ l2) := by
  obtain ⟨ha1, hb1, hc1⟩ := h1
  obtain ⟨ha2, hb2, hc2⟩ := h2
  refine ⟨le_trans ha1 ha2, ?_, ?_⟩
  · rw [List.chain'_append]
    refine ⟨hb1, hb2, ?_⟩
    intro x hx y hy
    obtain ⟨d, hd1, hd2, hd3⟩ := hc1 x (List.mem_of_mem_getLast? hx)
    obtain ⟨d', he1, he2, he3⟩ := hc2 y (List.mem_of_mem_head? hy)
    rw [hd3, he3]
    exact hmono d d' (by omega)
  · intro x hx
    rcases List.mem_append.mp hx with h | h
    · obtain ⟨d, hd1, hd2, hd3⟩ := hc1 x h
      exact ⟨d, hd1, by omega, hd3⟩
    · obtain ⟨d, hd1, hd2, hd3⟩ := hc2 x h
      exact ⟨d, by omega, hd2, hd3⟩

theorem cwalk_repsOK (cfg : SCfg) (hmono : ∀ a b, a ≤ b → cfg.pf a ≤ cfg.pf b)
    (N : Nat) :
    (∀ validated current t din, cdirSize t ≤ N →
      RepsOK cfg.pf din (cwalk cfg validated current t din).2.2
        (cwalk cfg validated current t din).2.1) ∧
    (∀ validated current ds din, cdirListSize ds ≤ N →
      RepsOK cfg.pf din (cwalkDirs cfg validated current ds din).2.2
        (cwalkDirs cfg validated current ds din).2.1) := by
  induction N using Nat.strong_induction_on with
  | _ N ih =>
    constructor
    · intro validated current t din hN
      obtain ⟨ds, fs⟩ := t
      have hds : cdirListSize ds < N := by
        simp only [cdirSize] at hN
        omega
      simp only [cwalk]
      split
      · exact ⟨Nat.le_succ din, List.chain'_nil,
          fun x hx => absurd hx (List.not_mem_nil x)⟩
      · simp only []
        have hsub := (ih _ hds).2 validated current ds (din + 1) (le_refl _)
        refine RepsOK_append cfg.pf hmono ?_ hsub
        by_cases h5 : ((din + 1) % 5 == 0) = true
        · simp only [h5, if_true]
          refine ⟨Nat.le_succ din, List.chain'_singleton _, fun x hx => ?_⟩
          rw [List.mem_singleton] at hx
          exact ⟨din + 1, by omega, le_refl _, hx⟩
        · simp only [Bool.not_eq_true] at h5
          simp only [h5, Bool.false_eq_true, if_false]
          exact ⟨Nat.le_succ din, List.chain'_nil,
            fun x hx => absurd hx (List.not_mem_nil x)⟩
    · intro validated current ds din hN
      cases ds with
      | nil => exact RepsOK_nil cfg.pf din
      | cons q rest =>
        obtain ⟨d, sub⟩ := q
        have h1 : 1 ≤ cdirSize sub := by
          cases sub
          simp [cdirSize]
        have hsub : cdirSize sub < N := by
          simp only [cdirListSize] at hN
          omega
        have hrest : cdirListSize rest < N := by
          simp only [cdirListSize] at hN
          omega
        simp only [cwalkDirs]
        split
        · exact (ih _ hrest).2 validated current rest din (le_refl _)
        · simp only []
          exact RepsOK_append cfg.pf hmono
            ((ih _ hsub).1 validated (pathJoin current d) sub din (le_refl _))
            ((ih _ hrest).2 validated current rest _ (le_refl _))

theorem cfold_repsOK (cfg : SCfg) (cwd : String) (fsAt : String → CDir)
    (hmono : ∀ a b, a ≤ b → cfg.pf a ≤ cfg.pf b) :
    ∀ (paths : List String) (acc : List String × List (Nat × Nat) × Nat)
      (d0 : Nat) (r : List String × List (Nat × Nat) × Nat),
      RepsOK cfg.pf d0 acc.2.2 acc.2.1 →
      (paths.foldlM
        (fun (acc : List String × List (Nat × Nat) × Nat) search_path => do
          let v ← validate_path cfg.fm cwd search_path
          let w := cwalk cfg v v (fsAt v) acc.2.2
          pure (acc.1 ++ w.1, acc.2.1 ++ w.2.1, w.2.2)) acc) = .ok r →
      RepsOK cfg.pf d0 r.2.2 r.2.1 := by
  intro paths
  induction paths with
  | nil =>
    intro acc d0 r hacc h
    simp only [List.foldlM_nil, pure, Except.pure, Except.ok.injEq] at h
    rw [← h]
    exact hacc
  | cons p rest ih =>
    intro acc d0 r hacc h
    rw [List.foldlM_cons] at h
    cases hv : validate_path cfg.fm cwd p with
    | error e =>
      rw [hv] at h
      simp only [bind, Except.bind] at h
      cases h
    | ok v =>
      rw [hv] at h
      simp only [bind, Except.bind, pure, Except.pure] at h
      refine ih _ d0 r ?_ h
      exact RepsOK_append cfg.pf hmono hacc
        ((cwalk_repsOK cfg hmono (cdirSize (fsAt v))).1 v v (fsAt v) acc.2.2 (le_refl _))

/-- C8.  In every completed `search_files_by_content` call with a progress
callback, the reported values form a monotonically non-decreasing
sequence whose first invocation is `(5, 100)` (the report near the start)
and whose final invocation is exactly `(100, 100)`.  `pf` abstracts the
float progress formula; only its monotonicity and `[5, 85]` range are
assumed. -/
theorem progress_monotone_terminal (cfg : SCfg) (cwd : String)
    (fsAt : String → CDir) (path : Option String) (res : List String)
    (reps : List (Nat × Nat))
    (hmono : ∀ a b, a ≤ b → cfg.pf a ≤ cfg.pf b)
    (hlo : ∀ d, 5 ≤ cfg.pf d) (hhi : ∀ d, cfg.pf d ≤ 85)
    (hok : search_files_by_content cfg cwd fsAt path = .ok (res, reps)) :
    List.Chain' (fun x y => x.1 ≤ y.1) reps ∧
    reps.head? = some (5, 100) ∧ reps.getLast? = some (100, 100) := by
  unfold search_files_by_content at hok
  obtain ⟨r, hfold, hpure⟩ := exceptBindOk hok
  simp only [pure, Except.pure, Except.ok.injEq, Prod.mk.injEq] at hpure
  obtain ⟨h1, h2, h3⟩ := cfold_repsOK cfg cwd fsAt hmono _ ([], [], 0) 0 r
    (RepsOK_nil cfg.pf 0) hfold
  have hreps : reps = (5, 100) :: (r.2.1 ++ [(100, 100)]) := hpure.2.symm
  subst hreps
  refine ⟨?_, rfl, ?_⟩
  · rw [List.chain'_cons']
    constructor
    · intro y hy
      rcases hl : r.2.1 with _ | ⟨a, l⟩
      · rw [hl] at hy
        simp only [List.nil_append, List.head?_cons, Option.mem_def,
          Option.some.injEq] at hy
        rw [← hy]
        decide
      · rw [hl] at hy
        simp only [List.cons_append, List.head?_cons, Option.mem_def,
          Option.some.injEq] at hy
        have ha : a ∈ r.2.1 := by
          rw [hl]
          exact List.mem_cons_self _ _
        obtain ⟨d, _, _, hd3⟩ := h3 a ha
        rw [← hy, hd3]
        simpa using hlo d
    · rw [List.chain'_append]
      refine ⟨h2, List.chain'_singleton _, ?_⟩
      intro x hx y hy
      obtain ⟨d, _, _, hd3⟩ := h3 x (List.mem_of_mem_getLast? hx)
      simp only [List.head?_cons, Option.mem_def, Option.some.injEq] at hy
      rw [hd3, ← hy]
      have := hhi d
      simp only []
      omega
  · rw [← List.cons_append]
    exact List.getLast?_concat _

/-- C8 witness: a concrete completed search over `/data` reports exactly
`[(5, 100), (100, 100)]`, and the theorem instantiates with the concrete
progress formula `pfConcrete`. -/
theorem progress_monotone_terminal_witness :
    List.Chain' (fun x y : Nat × Nat => x.1 ≤ y.1) [(5, 100), (100, 100)] ∧
    ([((5 : Nat), (100 : Nat)), (100, 100)]).head? = some (5, 100) ∧
    ([((5 : Nat), (100 : Nat)), (100, 100)]).getLast? = some (100, 100) :=
  progress_monotone_terminal exSCfg "/" (fun _ => exCTree) (some "/data")
    ["/data/a.txt"] [(5, 100), (100, 100)]
    (fun a b hab => by
      unfold exSCfg pfConcrete
      simp only []
      have hdiv := Nat.div_le_div_right (c := 5) (by omega : 4 * a ≤ 4 * b)
      exact min_le_min (by omega) (le_refl _))
    (fun d => by
      unfold exSCfg pfConcrete
      simp only []
      exact le_min (by omega) (by omega))
    (fun d => by
      unfold exSCfg pfConcrete
      simp only []
      exact min_le_right _ _)
    rfl

/-! ### Claim C9: `read_file` -/

/-- C9.  `read_file` validates first and propagates the validation error;
on a validated path that is not a regular file it raises `NotAFileError`;
otherwise its outcome is determined by the strict UTF-8 decode alone:
an invalid byte sequence raises `DecodeError`, and no other encoding is
ever consulted (the result is a function of the single `utf8` decode). -/
theorem read_file_behaviour (fm : FileManager) (cwd : String)
    (isFile : String → Bool) (utf8 : String → Option String) (path : String) :
    (∀ e, validate_path fm cwd path = .error e →
      read_file fm cwd isFile utf8 path = .error e) ∧
    (∀ v, validate_path fm cwd path = .ok v → isFile v = false →
      read_file fm cwd isFile utf8 path = .error .NotAFileError) ∧
    (∀ v, validate_path fm cwd path = .ok v → isFile v = true →
      read_file fm cwd isFile utf8 path =
        (match utf8 v with
         | none => .error .DecodeError
         | some s => .ok s)) := by
  refine ⟨?_, ?_, ?_⟩
  · intro e h
    unfold read_file
    rw [h]
  · intro v h hfile
    unfold read_file
    rw [h]
    simp [hfile]
  · intro v h hfile
    unfold read_file
    rw [h]
    simp [hfile]

/-- C9 witness: on a validated regular file whose bytes are not valid
UTF-8, `read_file` returns `DecodeError`. -/
theorem read_file_behaviour_witness :
    read_file fmData "/" (fun _ => true) (fun _ => none) "/data/a.txt" =
      .error .DecodeError :=
  (read_file_behaviour fmData "/" (fun _ => true) (fun _ => none) "/data/a.txt").2.2
    "/data/a.txt" rfl rfl

end FileServer
